import Mathlib

/-!
Verification of the blossom Bloom-filter library against its specification.

The development shallowly embeds the library's core (`lib/fnv.js`,
`lib/bitfield.js`, `lib/bloom.js`):

* Byte strings (`Buffer`) are `List ℕ` with every element below 256.
* JavaScript numbers that hold 32-bit integer intermediates (the FNV hash
  state) are modelled exactly over `ℤ`: the source's `^` and `<<` operators
  coerce through signed 32-bit integers (`toInt32`), while the `+=` sum of six
  int32 values stays exact in a double (its magnitude is below 2^35 ≪ 2^53),
  so `ℤ` arithmetic with explicit `toInt32` reductions reproduces the double
  arithmetic bit for bit.
* Counts, sizes and indices that the source keeps integral are `ℕ`.
* Values produced by `Math.log` / `Math.ceil` real arithmetic are `ℝ` / `ℤ`;
  the corresponding definitions are `noncomputable`, everything else is
  executable.
* A JavaScript `for (let i = 0; i < slices; i++)` loop whose bound `slices`
  may be a non-integer real executes for exactly the naturals `i` with
  `i < slices`; since that guard is antitone in `i`, the iteration count is
  the least `n` with `¬(n < slices)` (`realLoopCount`, defined by `sInf`, and
  proved equal to `⌈slices⌉₊`).
* A thrown `TypeError` is modelled by `Option.none` on operations that can
  reach one (`AttenuatedBloomFilter.merge` dereferencing a missing peer
  level); in-place mutation becomes functional state passing.
-/

/-! ## The embedded model -/

/-- JavaScript `ToInt32`: reduce an exact integer to the signed 32-bit value
whose bit pattern is the integer's low 32 bits. -/
def toInt32 (z : ℤ) : ℤ := (z + 2 ^ 31) % 2 ^ 32 - 2 ^ 31

/-- One byte of `FNV.update` (`lib/fnv.js` lines 72-81): `hash = hash ^ byte`
(a signed-int32 xor), then `hash += (hash << 24) + (hash << 8) + (hash << 7)
+ (hash << 4) + (hash << 1)` where each `<<` passes through `ToInt32` and the
sum is exact double (hence exact `ℤ`) addition. The xor of the int32 value of
`hash` with a byte has the bit pattern `(hash mod 2^32) ^^^ byte`. -/
def fnvStep (h : ℤ) (b : ℕ) : ℤ :=
  let x : ℤ := toInt32 (((h % 2 ^ 32).toNat ^^^ b : ℕ) : ℤ)
  x + (toInt32 (x * 2 ^ 24) + toInt32 (x * 2 ^ 8) + toInt32 (x * 2 ^ 7) +
    toInt32 (x * 2 ^ 4) + toInt32 (x * 2 ^ 1))

/-- `this.hash = 0x811c9dc5` — the FNV-1a 32-bit offset basis (`lib/fnv.js`
line 40). -/
def fnvInit : ℤ := 0x811c9dc5

/-- `FNV.update(data)` for a byte buffer: fold `fnvStep` over the bytes.
(The string/encoding branch and the `TypeError` for other inputs are not
needed by the claims, which feed buffers.) -/
def fnvUpdate (h : ℤ) (data : List ℕ) : ℤ := data.foldl fnvStep h

/-- `this.hash & 0xffffffff` reinterpreted unsigned, i.e. the JS expression
`fnv.value() >>> 0` used by `calulateHashes`: the low 32 bits of the state. -/
def fnvValueU (h : ℤ) : ℕ := (h % 2 ^ 32).toNat

/-- `FNV.digest()`: the four bytes of `writeInt32BE(this.hash & 0xffffffff)`,
big-endian two's complement, equal to the big-endian bytes of the state's low
32 bits. -/
def fnvDigest (h : ℤ) : List ℕ :=
  let u := fnvValueU h
  [u / 2 ^ 24 % 256, u / 2 ^ 16 % 256, u / 2 ^ 8 % 256, u % 256]

/-- `new Bitfield(number, buffer)` (`lib/bitfield.js`): the backing buffer has
`Math.ceil(number / 8)` bytes; a supplied buffer is adopted only when its
length matches exactly, otherwise a zero-filled buffer is allocated. The
Bitfield object is identified with its byte buffer. -/
def mkBitfield (number : ℕ) (buffer : Option (List ℕ)) : List ℕ :=
  let size := (number + 7) / 8
  match buffer with
  | some b => if b.length = size then b else List.replicate size 0
  | none => List.replicate size 0

/-- `Bitfield.set(index, true)`: `buffer[index >>> 3] |= 1 << (index % 8)`.
An out-of-range byte position leaves the buffer unchanged (a JS `Buffer`
ignores out-of-range element assignment), which `List.set` also does. The
`false` branch of `set` is never used by the bloom module. -/
def bitfieldSetTrue (buf : List ℕ) (index : ℕ) : List ℕ :=
  buf.set (index / 8) (buf.getD (index / 8) 0 ||| 1 <<< (index % 8))

/-- `Bitfield.get(index)`: `(buffer[index >>> 3] & (1 << (index % 8))) !== 0`;
an out-of-range read yields `undefined`, which the `&` coerces to 0. -/
def bitfieldGet (buf : List ℕ) (index : ℕ) : Bool :=
  (buf.getD (index / 8) 0 &&& 1 <<< (index % 8)) != 0

/-- `calulateHashes(key, size, slices)` (`lib/bloom.js` lines 47-66) for an
integral slice count: `h1 = fnv('S', key)`, `h2 = fnv('W', key)` — each a
fresh FNV instance updated with the one-byte seed buffer and then the key —
and the list of `(h1 + i * h2) % size` for `i = 0 .. slices - 1`.
(`Buffer.from('S') = [83]`, `Buffer.from('W') = [87]`.) -/
def calulateHashes (key : List ℕ) (size slices : ℕ) : List ℕ :=
  let h1 := fnvValueU (fnvUpdate (fnvUpdate fnvInit [83]) key)
  let h2 := fnvValueU (fnvUpdate (fnvUpdate fnvInit [87]) key)
  (List.range slices).map fun i => (h1 + i * h2) % size

/-- Iteration count of the source's `for (let i = 0; i < slices; i++)` loop
when `slices` is an arbitrary real: the guard `(i : ℝ) < slices` is antitone
in `i`, so the loop body runs exactly for `i` below the least `n` at which
the guard fails. -/
noncomputable def realLoopCount (s : ℝ) : ℕ := sInf {n : ℕ | ¬((n : ℝ) < s)}

/-- `calulateHashes` as the source runs it when `slices` is a real number
(the value `calculateSlices` returns): the loop executes `realLoopCount
slices` times. -/
noncomputable def calulateHashesR (key : List ℕ) (size : ℕ) (slices : ℝ) : List ℕ :=
  calulateHashes key size (realLoopCount slices)

/-- The source's hardcoded constant `log2sq = 0.480453`, annotated
`// Math.pow(Math.log(2), 2)` (`lib/bloom.js` line 25). -/
def log2sq : ℝ := 0.480453

/-- `calculateSize(capacity, errorRate) = Math.ceil(capacity *
Math.log(errorRate) / -log2sq)` (`lib/bloom.js` lines 24-27). -/
noncomputable def calculateSize (capacity errorRate : ℝ) : ℤ :=
  ⌈capacity * Real.log errorRate / -log2sq⌉

/-- The sizing formula as the specification words it: the divisor is the
exact square of the natural logarithm of 2 (compare `calculateSize`, whose
divisor is the truncated constant 0.480453). -/
noncomputable def calculateSizeSpec (capacity errorRate : ℝ) : ℤ :=
  ⌈capacity * Real.log errorRate / -(Real.log 2 ^ 2)⌉

/-- `calculateSlices(size, capacity) = size / capacity * Math.log(2)`
(`lib/bloom.js` lines 35-37). -/
noncomputable def calculateSlices (size capacity : ℝ) : ℝ :=
  size / capacity * Real.log 2

/-- `class BloomFilter`: `size` and `slices` as constructed, plus the owned
Bitfield's buffer. -/
structure BloomFilter where
  size : ℕ
  slices : ℕ
  bitfield : List ℕ
  deriving DecidableEq

/-- `new BloomFilter(size, slices)` with the default (freshly allocated)
buffer. -/
def mkBloomFilter (size slices : ℕ) : BloomFilter :=
  { size := size, slices := slices, bitfield := mkBitfield size none }

/-- `BloomFilter.add(key)`: set the bit at every derived index. (The source
returns `this`; the returned object is the mutated filter, i.e. this value.) -/
def BloomFilter.add (f : BloomFilter) (key : List ℕ) : BloomFilter :=
  { f with bitfield := (calulateHashes key f.size f.slices).foldl bitfieldSetTrue f.bitfield }

/-- `BloomFilter.has(key)`: true iff every derived index has its bit set
(the source's early-`return false` loop is `List.all`). -/
def BloomFilter.has (f : BloomFilter) (key : List ℕ) : Bool :=
  (calulateHashes key f.size f.slices).all fun i => bitfieldGet f.bitfield i

/-- `BloomFilter.destringify(data)`: build `new BloomFilter(data.size,
data.slices)` then overwrite its buffer with a copy of the snapshot's bytes.
A snapshot carries exactly the fields `{size, slices, bitfield: {buffer}}`,
so it is represented by the `BloomFilter` value itself. -/
def destringifyBloom (data : BloomFilter) : BloomFilter :=
  { size := data.size, slices := data.slices, bitfield := data.bitfield }

/-- `class SafeBloomFilter`: capacity, error rate, insertion count and the
owned `BloomFilter`. -/
structure SafeBloomFilter where
  capacity : ℕ
  errorRate : ℝ
  count : ℕ
  filter : BloomFilter

/-- `new SafeBloomFilter(capacity, errorRate)`: size from `calculateSize`
(its `Math.ceil` result is used as a bit count; `Int.toNat` records that a
negative size would not survive `Buffer.alloc`, which throws — unreachable
for the claims' domain `0 < errorRate < 1`), slices from `calculateSlices`,
a real stored in the `BloomFilter` and used only as the hash loop's bound,
hence modelled by its iteration count `realLoopCount`. -/
noncomputable def mkSafeBloomFilter (capacity : ℕ) (errorRate : ℝ) : SafeBloomFilter :=
  let size := (calculateSize capacity errorRate).toNat
  let slices := realLoopCount (calculateSlices size capacity)
  { capacity := capacity
    errorRate := errorRate
    count := 0
    filter := { size := size, slices := slices, bitfield := mkBitfield size none } }

/-- `SafeBloomFilter.add(key)` (`lib/bloom.js` lines 158-167): reject without
any mutation when `count >= capacity`, else delegate to the owned filter,
increment `count` and accept. Returns (new state, wasAdded). -/
def SafeBloomFilter.add (f : SafeBloomFilter) (key : List ℕ) : SafeBloomFilter × Bool :=
  if f.capacity ≤ f.count then (f, false)
  else ({ f with count := f.count + 1, filter := f.filter.add key }, true)

/-- `SafeBloomFilter.has(key)`: delegate to the owned filter. -/
def SafeBloomFilter.has (f : SafeBloomFilter) (key : List ℕ) : Bool :=
  f.filter.has key

/-- Fold a sequence of `SafeBloomFilter.add` calls, keeping the state. -/
def safeAddMany (f : SafeBloomFilter) (keys : List (List ℕ)) : SafeBloomFilter :=
  keys.foldl (fun s k => (s.add k).1) f

/-- The booleans a sequence of `SafeBloomFilter.add` calls returns, in order. -/
def safeAddResults (f : SafeBloomFilter) : List (List ℕ) → List Bool
  | [] => []
  | k :: ks => (f.add k).2 :: safeAddResults (f.add k).1 ks

/-- `SafeBloomFilter.destringify(data)`: construct `new
SafeBloomFilter(data.capacity, data.errorRate)` — re-deriving size and slices
— then restore `count` verbatim and overwrite the owned filter's buffer with
the snapshot's bytes. -/
noncomputable def destringifySafe (data : SafeBloomFilter) : SafeBloomFilter :=
  let fresh := mkSafeBloomFilter data.capacity data.errorRate
  { fresh with
    count := data.count
    filter := { fresh.filter with bitfield := data.filter.bitfield } }

/-- `class ScalingBloomFilter`: overall error rate, tightening ratio,
capacity growth factor, initial capacity, and the generation list. The
source keeps `scaling` as a JS number; all its uses multiply a capacity, and
the claims exercise integral factors (default 2), so it is `ℕ` here. -/
structure ScalingBloomFilter where
  errorRate : ℝ
  ratio : ℝ
  scaling : ℕ
  initialCapacity : ℕ
  filters : List SafeBloomFilter

/-- `new ScalingBloomFilter(errorRate, options)` with the `||`-defaults
already applied to the option fields: one generation of capacity
`initialCapacity` and error budget `errorRate * (1 - ratio)`. -/
noncomputable def mkScalingBloomFilter (errorRate ratio : ℝ) (scaling initialCapacity : ℕ) :
    ScalingBloomFilter :=
  { errorRate := errorRate
    ratio := ratio
    scaling := scaling
    initialCapacity := initialCapacity
    filters := [mkSafeBloomFilter initialCapacity (errorRate * (1 - ratio))] }

/-- `ScalingBloomFilter.add(key)` (`lib/bloom.js` lines 226-242): try the
tail generation; on acceptance the function hits the bare `return;` —
returning `undefined`, modelled by the boolean `false` ("did not return
`this`"). On rejection it builds `new SafeBloomFilter(tail.capacity *
scaling, tail.errorRate * ratio)`, adds the key to it (discarding that
result), appends it and returns `this` (boolean `true`). `none` models the
crash on an empty generation list (`filters.slice(-1)[0]` is `undefined`),
which no reachable state produces. -/
noncomputable def ScalingBloomFilter.add (s : ScalingBloomFilter) (key : List ℕ) :
    Option (ScalingBloomFilter × Bool) :=
  match s.filters.getLast? with
  | none => none
  | some f =>
    let r := f.add key
    if r.2 then some ({ s with filters := s.filters.dropLast ++ [r.1] }, false)
    else
      let g := mkSafeBloomFilter (f.capacity * s.scaling) (f.errorRate * s.ratio)
      some ({ s with filters := s.filters ++ [(g.add key).1] }, true)

/-- `ScalingBloomFilter.has(key)`: scan the generations (the source walks
them newest-first with an early exit; the boolean result is `List.any`). -/
def ScalingBloomFilter.has (s : ScalingBloomFilter) (key : List ℕ) : Bool :=
  s.filters.any fun f => f.has key

/-- Fold a sequence of `ScalingBloomFilter.add` calls, keeping the state
(the unreachable empty-generation crash leaves the state as is). -/
noncomputable def scalingAddMany (s : ScalingBloomFilter) (keys : List (List ℕ)) :
    ScalingBloomFilter :=
  keys.foldl (fun st k => match st.add k with | some p => p.1 | none => st) s

/-- `ScalingBloomFilter.destringify(data)`: rebuild the top-level parameters
through the constructor, discard its initial generation, and reconstruct
every serialized generation in order with `SafeBloomFilter.destringify`. -/
noncomputable def destringifyScaling (data : ScalingBloomFilter) : ScalingBloomFilter :=
  { errorRate := data.errorRate
    ratio := data.ratio
    scaling := data.scaling
    initialCapacity := data.initialCapacity
    filters := data.filters.map destringifySafe }

/-- `class AttenuatedBloomFilter extends Array`: the depth-indexed level
list plus the two scalar fields. -/
structure AttenuatedBloomFilter where
  bitfieldSize : ℕ
  filterDepth : ℕ
  filters : List BloomFilter
  deriving DecidableEq

/-- `new AttenuatedBloomFilter(options)` with the `||`-defaults (160, 3)
already applied: `filterDepth` levels, each `new BloomFilter(bitfieldSize,
2)`. -/
def mkAttenuatedBloomFilter (bitfieldSize filterDepth : ℕ) : AttenuatedBloomFilter :=
  { bitfieldSize := bitfieldSize
    filterDepth := filterDepth
    filters := List.replicate filterDepth (mkBloomFilter bitfieldSize 2) }

/-- Replace the element at an index, leaving the list unchanged when the
index is out of range. -/
def listModifyBloom (g : BloomFilter → BloomFilter) : ℕ → List BloomFilter → List BloomFilter
  | _, [] => []
  | 0, f :: fs => g f :: fs
  | n + 1, f :: fs => f :: listModifyBloom g n fs

/-- `atbf[i].add(key)`: callers mutate a level's filter directly through the
array interface. -/
def AttenuatedBloomFilter.addAt (a : AttenuatedBloomFilter) (i : ℕ) (key : List ℕ) :
    AttenuatedBloomFilter :=
  { a with filters := listModifyBloom (fun f => f.add key) i a.filters }

/-- `atbf[i].has(key)` (false also stands for the out-of-range access the
claims never make). -/
def AttenuatedBloomFilter.hasAt (a : AttenuatedBloomFilter) (i : ℕ) (key : List ℕ) : Bool :=
  match a.filters.get? i with
  | some f => f.has key
  | none => false

/-- Fold a sequence of per-level `add` calls `(level, key)` over the set. -/
def attAddMany (a : AttenuatedBloomFilter) (ops : List (ℕ × List ℕ)) : AttenuatedBloomFilter :=
  ops.foldl (fun st op => st.addAt op.1 op.2) a

/-- Lower-case hex digit of a nibble, as `Buffer.toString('hex')` writes it
(48 = the code of 0, 87 + 10 = the code of the letter a). -/
def hexDigit (n : ℕ) : Char := if n < 10 then Char.ofNat (48 + n) else Char.ofNat (87 + n)

/-- `buffer.toString('hex')`: two lower-case hex digits per byte, in order. -/
def hexEncode (bytes : List ℕ) : List Char :=
  bytes.foldr (fun b acc => hexDigit (b / 16) :: hexDigit (b % 16) :: acc) []

/-- Numeric value of a hex digit character (0 for other characters; the
claims only decode strings `hexEncode` produced). -/
def hexVal (c : Char) : ℕ :=
  if 48 ≤ c.toNat ∧ c.toNat ≤ 57 then c.toNat - 48
  else if 97 ≤ c.toNat ∧ c.toNat ≤ 102 then c.toNat - 87
  else if 65 ≤ c.toNat ∧ c.toNat ≤ 70 then c.toNat - 55
  else 0

/-- `Buffer.from(hexString, 'hex')`: consume digit pairs; an incomplete
trailing digit is dropped. -/
def hexDecode : List Char → List ℕ
  | c1 :: c2 :: rest => (hexVal c1 * 16 + hexVal c2) :: hexDecode rest
  | _ => []

/-- `AttenuatedBloomFilter.toHexArray()`: one hex string per level. -/
def AttenuatedBloomFilter.toHexArray (a : AttenuatedBloomFilter) : List (List Char) :=
  a.filters.map fun f => hexEncode f.bitfield

/-- `AttenuatedBloomFilter.from(hexFilters)` (the static named constructor):
`bitfieldSize = Buffer.from(hexFilters[0], 'hex').length * 8`, `filterDepth =
hexFilters.length`, and every level's buffer overwritten with the decoded
bytes of its hex string. (An empty argument list would throw in the source;
the claims apply it to non-empty `toHexArray` output.) -/
def AttenuatedBloomFilter.fromHexArray (hexFilters : List (List Char)) : AttenuatedBloomFilter :=
  let bs := (hexDecode (hexFilters.headD [])).length * 8
  { bitfieldSize := bs
    filterDepth := hexFilters.length
    filters := hexFilters.map fun hx => { size := bs, slices := 2, bitfield := hexDecode hx } }

/-- Byte-wise OR of a foreign buffer into a local one: the source iterates
the foreign byte list and writes `local[pos] |= byte`; positions past the
local buffer's end are dropped by the `Buffer`, and local bytes past the
foreign buffer's end stay as they are. -/
def orBytes : List ℕ → List ℕ → List ℕ
  | l, [] => l
  | [], _ :: _ => []
  | a :: l, b :: f => (a ||| b) :: orBytes l f

/-- The body of `AttenuatedBloomFilter.merge` (`lib/bloom.js` lines 338-358):
walk the local levels by index; skip index 0; at index `i ≥ 1` the source
first dereferences `foreignFilters[i - 1].bitfield.buffer` — when the peer
has no level `i - 1` this reads a property of `undefined` and throws a
`TypeError` (modelled `none`); the `if (!foreignFilters[localIndex - 1])
return this;` guard placed after that dereference can never fire. Otherwise
the peer level's bytes are ORed into the local level's buffer. -/
def mergeLoop (foreign : List BloomFilter) : ℕ → List BloomFilter → Option (List BloomFilter)
  | _, [] => some []
  | 0, lf :: rest => (mergeLoop foreign 1 rest).map fun r => lf :: r
  | i + 1, lf :: rest =>
    match foreign.get? i with
    | none => none
    | some ff =>
      (mergeLoop foreign (i + 2) rest).map fun r =>
        { lf with bitfield := orBytes lf.bitfield ff.bitfield } :: r

/-- `AttenuatedBloomFilter.merge(foreignFilters)`: `none` when the source
throws (peer more than one level shorter than the local set). -/
def AttenuatedBloomFilter.merge (a foreign : AttenuatedBloomFilter) :
    Option AttenuatedBloomFilter :=
  (mergeLoop foreign.filters 0 a.filters).map fun fs => { a with filters := fs }

/-- The invariant every constructed `BloomFilter` has: a positive bit count
(the spec's data-model invariant `size >= 1`) and a buffer of exactly
`Math.ceil(size / 8)` bytes, as `new Bitfield(size)` allocates. -/
def BloomFilter.WF (f : BloomFilter) : Prop :=
  1 ≤ f.size ∧ f.bitfield.length = (f.size + 7) / 8

instance (f : BloomFilter) : Decidable f.WF := by
  unfold BloomFilter.WF
  infer_instance

/-- Fold a sequence of plain `BloomFilter.add` calls. -/
def bloomAddMany (f : BloomFilter) (keys : List (List ℕ)) : BloomFilter :=
  keys.foldl BloomFilter.add f

/-- What `ScalingBloomFilter.add` needs of a state to guarantee the key lands
in a generation: a tail generation exists (the constructor creates one and
`add` only appends), its filter is well-formed, and the parameters a freshly
spawned generation would get are sensible — positive capacity and an error
budget strictly between 0 and 1 (all true of the spec's parameter domain). -/
def ScalingBloomFilter.WFadd (s : ScalingBloomFilter) : Prop :=
  ∃ t, s.filters.getLast? = some t ∧ t.filter.WF ∧ 1 ≤ t.capacity * s.scaling ∧
    0 < t.errorRate * s.ratio ∧ t.errorRate * s.ratio < 1

/-- `Buffer.from('foo')`. -/
def fooKey : List ℕ := [102, 111, 111]

/-- `Buffer.from('bar')`. -/
def barKey : List ℕ := [98, 97, 114]

/-- `Buffer.from('baz')`. -/
def bazKey : List ℕ := [98, 97, 122]

/-- A small capacity-bounded filter with room (count 0 of 5). -/
noncomputable def safeDemoRoom : SafeBloomFilter :=
  { capacity := 5, errorRate := 1 / 2, count := 0,
    filter := { size := 16, slices := 2, bitfield := [0, 0] } }

/-- The same capacity-bounded filter at capacity (count 5 of 5). -/
noncomputable def safeDemoFull : SafeBloomFilter :=
  { capacity := 5, errorRate := 1 / 2, count := 5,
    filter := { size := 16, slices := 2, bitfield := [0, 0] } }

/-- A small scaling filter whose tail generation still has room. -/
noncomputable def scalingDemoTailRoom : ScalingBloomFilter :=
  { errorRate := 1 / 2
    ratio := 1 / 2
    scaling := 2
    initialCapacity := 5
    filters := [safeDemoRoom] }

/-- The same scaling filter with its tail generation at capacity. -/
noncomputable def scalingDemoTailFull : ScalingBloomFilter :=
  { errorRate := 1 / 2
    ratio := 1 / 2
    scaling := 2
    initialCapacity := 5
    filters := [safeDemoFull] }

/-- The claim C4 scenario's first attenuated set after its three level adds. -/
def attA : AttenuatedBloomFilter :=
  (((mkAttenuatedBloomFilter 160 3).addAt 0 fooKey).addAt 1 barKey).addAt 2 bazKey

/-- The claim C4 scenario's second attenuated set (same adds as `attA`). -/
def attB : AttenuatedBloomFilter :=
  (((mkAttenuatedBloomFilter 160 3).addAt 0 fooKey).addAt 1 barKey).addAt 2 bazKey

/-- The result of `attA.merge(attB)` (the merge succeeds: equal depths). -/
def attMergedAB : AttenuatedBloomFilter :=
  (attA.merge attB).getD (mkAttenuatedBloomFilter 0 0)

/-- A one-level attenuated set with a non-byte-aligned `bitfieldSize` of 1,
with `'foo'` added at level 0. -/
def attTiny : AttenuatedBloomFilter := (mkAttenuatedBloomFilter 1 1).addAt 0 fooKey

/-- A capacity-bounded filter destringifies to itself: the round-trip
property of one state. -/
def SafeRT (g : SafeBloomFilter) : Prop := destringifySafe g = g

/-- What `from(toHexArray())` needs to reproduce an attenuated set exactly:
a non-empty level list matching `filterDepth`, a positive byte-aligned
`bitfieldSize` (the reconstruction recovers it as `byteLength * 8`), and
levels whose dimensions are the constructor's (`size = bitfieldSize`,
`slices = 2`, buffer of `bitfieldSize / 8` genuine bytes). Every set built
by the constructor with a byte-aligned size and mutated through level adds
and merges satisfies this. -/
def AttRT (a : AttenuatedBloomFilter) : Prop :=
  a.filters ≠ [] ∧ a.filterDepth = a.filters.length ∧ 8 ∣ a.bitfieldSize ∧
  a.bitfieldSize ≠ 0 ∧
  ∀ f ∈ a.filters, f.size = a.bitfieldSize ∧ f.slices = 2 ∧
    f.bitfield.length = a.bitfieldSize / 8 ∧ ∀ b ∈ f.bitfield, b < 256

instance (a : AttenuatedBloomFilter) : Decidable (AttRT a) := by
  unfold AttRT
  infer_instance

/-! ## Lemmas and claim theorems -/

/-- `getD` after `set`: the written value at the written index when it is in
range, the old value everywhere else. -/
theorem getD_set (l : List ℕ) (i j v : ℕ) :
    (l.set i v).getD j 0 = if i = j ∧ i < l.length then v else l.getD j 0 := by
  induction l generalizing i j with
  | nil => simp
  | cons a l ih =>
    cases i with
    | zero =>
      cases j with
      | zero => simp
      | succ j => simp
    | succ i =>
      cases j with
      | zero => simp
      | succ j => simpa [Nat.succ_lt_succ_iff] using ih i j

/-- Reading a bit is testing the byte's bit. -/
theorem bitfieldGet_testBit (buf : List ℕ) (i : ℕ) :
    bitfieldGet buf i = (buf.getD (i / 8) 0).testBit (i % 8) := by
  unfold bitfieldGet
  rw [Nat.shiftLeft_eq, one_mul, Nat.and_two_pow]
  cases h : (buf.getD (i / 8) 0).testBit (i % 8) <;>
    simp [h, (Nat.two_pow_pos (i % 8)).ne']

theorem length_bitfieldSetTrue (buf : List ℕ) (i : ℕ) :
    (bitfieldSetTrue buf i).length = buf.length := by
  unfold bitfieldSetTrue
  exact List.length_set ..

theorem bitfieldGet_setTrue_self (buf : List ℕ) (i : ℕ) (h : i / 8 < buf.length) :
    bitfieldGet (bitfieldSetTrue buf i) i = true := by
  rw [bitfieldGet_testBit]
  unfold bitfieldSetTrue
  rw [getD_set]
  simp [h, Nat.shiftLeft_eq, Nat.testBit_lor, Nat.testBit_two_pow_self]

theorem bitfieldGet_setTrue_mono (buf : List ℕ) (i j : ℕ)
    (h : bitfieldGet buf j = true) : bitfieldGet (bitfieldSetTrue buf i) j = true := by
  rw [bitfieldGet_testBit] at h ⊢
  unfold bitfieldSetTrue
  rw [getD_set]
  split_ifs with hc
  · rw [← hc.1] at h
    rw [Nat.testBit_lor, h, Bool.true_or]
  · exact h

theorem length_foldl_setTrue (l : List ℕ) (buf : List ℕ) :
    (l.foldl bitfieldSetTrue buf).length = buf.length := by
  induction l generalizing buf with
  | nil => rfl
  | cons x l ih => rw [List.foldl_cons, ih, length_bitfieldSetTrue]

theorem bitfieldGet_foldl_mono (l : List ℕ) (buf : List ℕ) (j : ℕ)
    (h : bitfieldGet buf j = true) : bitfieldGet (l.foldl bitfieldSetTrue buf) j = true := by
  induction l generalizing buf with
  | nil => exact h
  | cons x l ih => exact ih _ (bitfieldGet_setTrue_mono _ _ _ h)

theorem bitfieldGet_foldl_mem (l : List ℕ) :
    ∀ (buf : List ℕ) (i : ℕ), i ∈ l → i / 8 < buf.length →
      bitfieldGet (l.foldl bitfieldSetTrue buf) i = true := by
  induction l with
  | nil =>
    intro _ _ hm _
    cases hm
  | cons x l ih =>
    intro buf i hm hr
    rw [List.foldl_cons]
    rcases List.mem_cons.mp hm with rfl | hm'
    · exact bitfieldGet_foldl_mono _ _ _ (bitfieldGet_setTrue_self _ _ hr)
    · exact ih _ _ hm' (by rw [length_bitfieldSetTrue]; exact hr)

theorem calulateHashes_lt (key : List ℕ) (size slices : ℕ) (h : 1 ≤ size) :
    ∀ x ∈ calulateHashes key size slices, x < size := by
  intro x hx
  unfold calulateHashes at hx
  simp only [List.mem_map, List.mem_range] at hx
  obtain ⟨i, _, rfl⟩ := hx
  exact Nat.mod_lt _ h

theorem BloomFilter.size_add (f : BloomFilter) (key : List ℕ) : (f.add key).size = f.size := rfl

theorem BloomFilter.slices_add (f : BloomFilter) (key : List ℕ) :
    (f.add key).slices = f.slices := rfl

theorem BloomFilter.length_bitfield_add (f : BloomFilter) (key : List ℕ) :
    (f.add key).bitfield.length = f.bitfield.length :=
  length_foldl_setTrue ..

theorem BloomFilter.WF_add (f : BloomFilter) (key : List ℕ) (h : f.WF) : (f.add key).WF :=
  ⟨h.1, by rw [BloomFilter.length_bitfield_add]; exact h.2⟩

theorem bloom_add_has_self (f : BloomFilter) (key : List ℕ) (h : f.WF) :
    (f.add key).has key = true := by
  unfold BloomFilter.has
  rw [List.all_eq_true]
  intro x hx
  have hx' : x ∈ calulateHashes key f.size f.slices := hx
  have hlt := calulateHashes_lt key f.size f.slices h.1 x hx'
  exact bitfieldGet_foldl_mem _ f.bitfield x hx' (by rw [h.2]; omega)

theorem bloom_has_mono_add (f : BloomFilter) (key k : List ℕ)
    (h : f.has key = true) : (f.add k).has key = true := by
  unfold BloomFilter.has at h ⊢
  rw [List.all_eq_true] at h ⊢
  intro x hx
  exact bitfieldGet_foldl_mono _ _ _ (h x hx)

theorem bloomAddMany_has_mono (f : BloomFilter) (key : List ℕ) (keys : List (List ℕ))
    (h : f.has key = true) : (bloomAddMany f keys).has key = true := by
  unfold bloomAddMany
  induction keys generalizing f with
  | nil => exact h
  | cons k ks ih => exact ih _ (bloom_has_mono_add _ _ _ h)

theorem SafeBloomFilter.capacity_add (f : SafeBloomFilter) (key : List ℕ) :
    (f.add key).1.capacity = f.capacity := by
  unfold SafeBloomFilter.add
  split_ifs <;> rfl

theorem SafeBloomFilter.errorRate_add (f : SafeBloomFilter) (key : List ℕ) :
    (f.add key).1.errorRate = f.errorRate := by
  unfold SafeBloomFilter.add
  split_ifs <;> rfl

theorem SafeBloomFilter.filter_size_add (f : SafeBloomFilter) (key : List ℕ) :
    (f.add key).1.filter.size = f.filter.size := by
  unfold SafeBloomFilter.add
  split_ifs <;> rfl

theorem SafeBloomFilter.filter_slices_add (f : SafeBloomFilter) (key : List ℕ) :
    (f.add key).1.filter.slices = f.filter.slices := by
  unfold SafeBloomFilter.add
  split_ifs <;> rfl

theorem Safebloom_has_mono_add (f : SafeBloomFilter) (key k : List ℕ)
    (h : f.has key = true) : (f.add k).1.has key = true := by
  unfold SafeBloomFilter.has at h ⊢
  unfold SafeBloomFilter.add
  split_ifs with hc
  · exact h
  · exact bloom_has_mono_add _ _ _ h

theorem Safebloom_add_has_self (f : SafeBloomFilter) (key : List ℕ)
    (hwf : f.filter.WF) (hacc : (f.add key).2 = true) : (f.add key).1.has key = true := by
  unfold SafeBloomFilter.add at hacc ⊢
  by_cases hc : f.capacity ≤ f.count
  · rw [if_pos hc] at hacc
    exact absurd hacc (by simp)
  · rw [if_neg hc]
    unfold SafeBloomFilter.has
    exact bloom_add_has_self _ _ hwf

theorem safeAddMany_has_mono (keys : List (List ℕ)) :
    ∀ (f : SafeBloomFilter) (key : List ℕ), f.has key = true →
      (safeAddMany f keys).has key = true := by
  induction keys with
  | nil => exact fun _ _ h => h
  | cons k ks ih =>
    intro f key h
    exact ih _ _ (Safebloom_has_mono_add _ _ _ h)

/-- A run of `add` calls on a filter with room for all of them: every call
returns `true`, and the count grows by the run's length while the capacity
stands still. -/
theorem safeAddResults_full (keys : List (List ℕ)) :
    ∀ f : SafeBloomFilter, f.count + keys.length ≤ f.capacity →
      safeAddResults f keys = List.replicate keys.length true ∧
      (safeAddMany f keys).count = f.count + keys.length ∧
      (safeAddMany f keys).capacity = f.capacity := by
  induction keys with
  | nil =>
    intro f _
    exact ⟨rfl, by simp [safeAddMany], rfl⟩
  | cons k ks ih =>
    intro f hle
    simp only [List.length_cons] at hle
    have hacc : (f.add k).2 = true := by
      unfold SafeBloomFilter.add
      rw [if_neg (by omega)]
    have hcount : (f.add k).1.count = f.count + 1 := by
      unfold SafeBloomFilter.add
      rw [if_neg (by omega)]
    have hcap : (f.add k).1.capacity = f.capacity := SafeBloomFilter.capacity_add f k
    have ih' := ih (f.add k).1 (by rw [hcount, hcap]; omega)
    refine ⟨?_, ?_, ?_⟩
    · show (f.add k).2 :: safeAddResults (f.add k).1 ks = _
      rw [hacc, ih'.1, List.length_cons, List.replicate_succ]
    · show (safeAddMany (f.add k).1 ks).count = _
      rw [ih'.2.1, hcount, List.length_cons]
      omega
    · show (safeAddMany (f.add k).1 ks).capacity = _
      rw [ih'.2.2, hcap]

/-- The real-bounded loop runs for exactly the ceiling of its bound. -/
theorem realLoopCount_eq_ceil (s : ℝ) : realLoopCount s = ⌈s⌉₊ := by
  unfold realLoopCount
  have hmem : (⌈s⌉₊ : ℕ) ∈ {n : ℕ | ¬((n : ℝ) < s)} := by
    simp only [Set.mem_setOf_eq, not_lt]
    exact Nat.le_ceil s
  refine le_antisymm (Nat.sInf_le hmem) ?_
  have h2 := Nat.sInf_mem (Set.nonempty_of_mem hmem)
  rw [Set.mem_setOf_eq, not_lt] at h2
  exact Nat.ceil_le.mpr h2

theorem calculateSize_pos (c e : ℝ) (hc : 1 ≤ c) (he0 : 0 < e) (he1 : e < 1) :
    0 < calculateSize c e := by
  unfold calculateSize
  have hlog : Real.log e < 0 := Real.log_neg he0 he1
  have hnum : c * Real.log e < 0 := mul_neg_of_pos_of_neg (by linarith) hlog
  have hden : -log2sq < 0 := by norm_num [log2sq]
  exact Int.ceil_pos.mpr (div_pos_of_neg_of_neg hnum hden)

theorem mkSafeBloomFilter_count (c : ℕ) (e : ℝ) : (mkSafeBloomFilter c e).count = 0 := rfl

theorem mkSafeBloomFilter_capacity (c : ℕ) (e : ℝ) : (mkSafeBloomFilter c e).capacity = c := rfl

theorem mkSafeBloomFilter_filter_WF (c : ℕ) (e : ℝ)
    (h : 1 ≤ (calculateSize c e).toNat) : (mkSafeBloomFilter c e).filter.WF := by
  refine ⟨h, ?_⟩
  simp [mkSafeBloomFilter, mkBitfield]

theorem mkSafeBloomFilter_add_accepts (c : ℕ) (e : ℝ) (key : List ℕ) (hc : 1 ≤ c) :
    ((mkSafeBloomFilter c e).add key).2 = true := by
  unfold SafeBloomFilter.add
  rw [if_neg (by simp [mkSafeBloomFilter]; omega)]

theorem ScalingBloomFilter.has_of_mem (s : ScalingBloomFilter) (g : SafeBloomFilter)
    (key : List ℕ) (hg : g ∈ s.filters) (h : g.has key = true) : s.has key = true := by
  unfold ScalingBloomFilter.has
  rw [List.any_eq_true]
  exact ⟨g, hg, h⟩

theorem ScalingBloomFilter.add_none (s : ScalingBloomFilter) (key : List ℕ)
    (h : s.filters.getLast? = none) : s.add key = none := by
  unfold ScalingBloomFilter.add
  rw [h]

/-- `ScalingBloomFilter.add` in closed form once the tail generation is
known. -/
theorem ScalingBloomFilter.add_eq (s : ScalingBloomFilter) (key : List ℕ)
    (t : SafeBloomFilter) (ht : s.filters.getLast? = some t) :
    s.add key = if (t.add key).2 = true
      then some ({ s with filters := s.filters.dropLast ++ [(t.add key).1] }, false)
      else some ({ s with filters := s.filters ++
        [((mkSafeBloomFilter (t.capacity * s.scaling) (t.errorRate * s.ratio)).add key).1] },
        true) := by
  unfold ScalingBloomFilter.add
  rw [ht]

theorem scalingAdd_has_self (s : ScalingBloomFilter) (key : List ℕ) (h : s.WFadd) :
    ∃ s' r, s.add key = some (s', r) ∧ s'.has key = true := by
  obtain ⟨t, ht, htwf, hcap, her0, her1⟩ := h
  rw [ScalingBloomFilter.add_eq s key t ht]
  by_cases hacc : (t.add key).2 = true
  · rw [if_pos hacc]
    refine ⟨_, _, rfl, ?_⟩
    refine ScalingBloomFilter.has_of_mem _ (t.add key).1 _ ?_
      (Safebloom_add_has_self t key htwf hacc)
    exact List.mem_append_right _ (List.mem_singleton.mpr rfl)
  · rw [if_neg hacc]
    refine ⟨_, _, rfl, ?_⟩
    have hsize : 0 < calculateSize (((t.capacity * s.scaling : ℕ) : ℝ))
        (t.errorRate * s.ratio) := by
      refine calculateSize_pos _ _ ?_ her0 her1
      exact_mod_cast hcap
    have hwfg := mkSafeBloomFilter_filter_WF (t.capacity * s.scaling)
      (t.errorRate * s.ratio) (by omega)
    have haccg := mkSafeBloomFilter_add_accepts (t.capacity * s.scaling)
      (t.errorRate * s.ratio) key hcap
    refine ScalingBloomFilter.has_of_mem _ _ _ ?_
      (Safebloom_add_has_self _ key hwfg haccg)
    exact List.mem_append_right _ (List.mem_singleton.mpr rfl)

theorem scalingAdd_has_mono (s : ScalingBloomFilter) (key k : List ℕ)
    (s' : ScalingBloomFilter) (r : Bool) (hadd : s.add k = some (s', r))
    (h : s.has key = true) : s'.has key = true := by
  cases hl : s.filters.getLast? with
  | none =>
    rw [ScalingBloomFilter.add_none s k hl] at hadd
    cases hadd
  | some t =>
    rw [ScalingBloomFilter.add_eq s k t hl] at hadd
    have hne : s.filters ≠ [] := by
      intro heq
      rw [heq] at hl
      cases hl
    obtain ⟨g, hg, hgh⟩ := List.any_eq_true.mp h
    by_cases hacc : (t.add k).2 = true
    · rw [if_pos hacc] at hadd
      have hs : ({ s with filters := s.filters.dropLast ++ [(t.add k).1] } :
          ScalingBloomFilter) = s' := congrArg Prod.fst (Option.some.inj hadd)
      subst hs
      rw [← List.dropLast_append_getLast hne] at hg
      rcases List.mem_append.mp hg with hg' | hg'
      · exact ScalingBloomFilter.has_of_mem _ g key (List.mem_append_left _ hg') hgh
      · have hgt : g = t := by
          have hgl := List.getLast?_eq_getLast_of_ne_nil hne
          rw [hl] at hgl
          rw [List.mem_singleton.mp hg', Option.some.inj hgl]
        refine ScalingBloomFilter.has_of_mem _ (t.add k).1 key
          (List.mem_append_right _ (List.mem_singleton.mpr rfl)) ?_
        exact Safebloom_has_mono_add t key k (hgt ▸ hgh)
    · rw [if_neg hacc] at hadd
      have hs := congrArg Prod.fst (Option.some.inj hadd)
      subst hs
      exact ScalingBloomFilter.has_of_mem _ g key (List.mem_append_left _ hg) hgh

theorem scalingAddMany_has_mono (keys : List (List ℕ)) :
    ∀ (s : ScalingBloomFilter) (key : List ℕ), s.has key = true →
      (scalingAddMany s keys).has key = true := by
  induction keys with
  | nil => exact fun _ _ h => h
  | cons k ks ih =>
    intro s key h
    show (scalingAddMany (match s.add k with | some p => p.1 | none => s) ks).has key = true
    cases hadd : s.add k with
    | none => exact ih _ _ h
    | some p => exact ih _ _ (scalingAdd_has_mono s key k p.1 p.2 (by rw [hadd]) h)

theorem get?_listModifyBloom (g : BloomFilter → BloomFilter) :
    ∀ (i j : ℕ) (l : List BloomFilter),
      (listModifyBloom g i l).get? j = if i = j then (l.get? j).map g else l.get? j := by
  intro i j l
  induction l generalizing i j with
  | nil => simp [listModifyBloom]
  | cons a l ih =>
    cases i with
    | zero =>
      cases j with
      | zero => simp [listModifyBloom]
      | succ j => simp [listModifyBloom]
    | succ i =>
      cases j with
      | zero => simp [listModifyBloom]
      | succ j => simpa [listModifyBloom, Nat.succ_inj] using ih i j

theorem attAddAt_hasAt_self (a : AttenuatedBloomFilter) (i : ℕ) (key : List ℕ)
    (f : BloomFilter) (hf : a.filters.get? i = some f) (hwf : f.WF) :
    (a.addAt i key).hasAt i key = true := by
  unfold AttenuatedBloomFilter.hasAt AttenuatedBloomFilter.addAt
  rw [get?_listModifyBloom, if_pos rfl, hf]
  exact bloom_add_has_self f key hwf

theorem attAddAt_hasAt_mono (a : AttenuatedBloomFilter) (i : ℕ) (key : List ℕ)
    (j : ℕ) (k : List ℕ) (h : a.hasAt i key = true) :
    (a.addAt j k).hasAt i key = true := by
  unfold AttenuatedBloomFilter.hasAt at h ⊢
  unfold AttenuatedBloomFilter.addAt
  rw [get?_listModifyBloom]
  by_cases hij : j = i
  · rw [if_pos hij]
    cases hf : a.filters.get? i with
    | none =>
      rw [hf] at h
      simp at h
    | some f =>
      rw [hf] at h
      show (f.add k).has key = true
      exact bloom_has_mono_add f key k h
  · rw [if_neg hij]
    exact h

theorem attAddMany_hasAt_mono (ops : List (ℕ × List ℕ)) :
    ∀ (a : AttenuatedBloomFilter) (i : ℕ) (key : List ℕ), a.hasAt i key = true →
      (attAddMany a ops).hasAt i key = true := by
  induction ops with
  | nil => exact fun _ _ _ h => h
  | cons op ops ih =>
    intro a i key h
    exact ih _ _ _ (attAddAt_hasAt_mono a i key op.1 op.2 h)

theorem hexVal_hexDigit (n : ℕ) (h : n < 16) : hexVal (hexDigit n) = n := by
  interval_cases n <;> decide

theorem hexDecode_hexEncode (bytes : List ℕ) (h : ∀ b ∈ bytes, b < 256) :
    hexDecode (hexEncode bytes) = bytes := by
  induction bytes with
  | nil => rfl
  | cons b bs ih =>
    have hb : b < 256 := h b (by simp)
    show hexDecode (hexDigit (b / 16) :: hexDigit (b % 16) :: hexEncode bs) = b :: bs
    unfold hexDecode
    rw [hexVal_hexDigit _ (by omega), hexVal_hexDigit _ (by omega),
      ih (fun x hx => h x (List.mem_cons_of_mem _ hx))]
    congr 1
    omega

/-- Incremental hashing concatenates: two `update` calls equal one `update`
of the concatenated bytes (the state fold is associative over append). -/
theorem fnvUpdate_append (h : ℤ) (a b : List ℕ) :
    fnvUpdate (fnvUpdate h a) b = fnvUpdate h (a ++ b) := by
  unfold fnvUpdate
  rw [List.foldl_append]

/-- Claim C8: the FNV model reproduces the literal 32-bit big-endian test
digests — the empty input hashes to `811c9dc5` (the offset basis), `"foobar"`
to `bf9cf968`, `"a"` to `e40c292c` — and feeding `"foo"` then `"bar"` through
two incremental `update` calls leaves the same state (hence the same digest)
as one `update` of `"foobar"`. -/
theorem c8_fnv_hash_vectors :
    fnvDigest (fnvUpdate fnvInit []) = [0x81, 0x1c, 0x9d, 0xc5] ∧
    fnvDigest (fnvUpdate fnvInit (fooKey ++ barKey)) = [0xbf, 0x9c, 0xf9, 0x68] ∧
    fnvDigest (fnvUpdate fnvInit [97]) = [0xe4, 0x0c, 0x29, 0x2c] ∧
    fnvUpdate (fnvUpdate fnvInit fooKey) barKey = fnvUpdate fnvInit (fooKey ++ barKey) ∧
    fnvDigest (fnvUpdate (fnvUpdate fnvInit fooKey) barKey) = [0xbf, 0x9c, 0xf9, 0x68] := by
  refine ⟨by decide, by decide, by decide, fnvUpdate_append fnvInit fooKey barKey, by decide⟩

/-- Claim C9 (code_bug evidence): `ScalingBloomFilter.add` returns
`undefined` — not `this` — when the tail generation accepts the key (the
bare `return;` on the accept path), and returns `this` only when a new
generation is spawned; its own jsdoc announces `@returns
{ScalingBloomFilter}` in both cases. -/
theorem c9_scaling_add_return_value :
    (scalingDemoTailRoom.add fooKey).map Prod.snd = some false ∧
    (scalingDemoTailFull.add fooKey).map Prod.snd = some true := by
  constructor
  · rw [ScalingBloomFilter.add_eq scalingDemoTailRoom fooKey _ rfl, if_pos (by decide)]
    rfl
  · rw [ScalingBloomFilter.add_eq scalingDemoTailFull fooKey _ rfl, if_neg (by decide)]
    rfl

/-- Claim C7 (code_bug evidence): merging a peer set two or more levels
shorter than the local one throws (reads `.bitfield` of `undefined`) instead
of stopping gracefully — the guard in the source sits after the dereference
and is unreachable. A peer exactly one level shorter still merges. -/
theorem c7_merge_throws_on_short_peer :
    (mkAttenuatedBloomFilter 8 3).merge (mkAttenuatedBloomFilter 8 1) = none ∧
    ((mkAttenuatedBloomFilter 8 3).merge (mkAttenuatedBloomFilter 8 2)).isSome = true := by
  constructor
  · decide
  · decide

/-- Claim C4: the literal merge scenario — two fresh default-depth sets with
`foo`/`bar`/`baz` added at levels 0/1/2; after `A.merge(B)`, level 0 keeps
exactly its own key (merge never modifies it), level 1 inherits B's level 0,
and level 2 inherits B's level 1. -/
theorem c4_merge_literal_scenario :
    (attA.merge attB).isSome = true ∧
    attMergedAB.hasAt 0 fooKey = true ∧
    attMergedAB.hasAt 0 barKey = false ∧
    attMergedAB.hasAt 1 fooKey = true ∧
    attMergedAB.hasAt 1 bazKey = false ∧
    attMergedAB.hasAt 2 barKey = true ∧
    attMergedAB.hasAt 2 fooKey = false ∧
    attMergedAB.filters.get? 0 = attA.filters.get? 0 := by
  decide

/-- Claim C5, counterexample: for an `AttenuatedBloomFilter` whose
`bitfieldSize` is not a multiple of 8 (here 1), `from(toHexArray())` does not
reproduce `has` — the reconstruction recovers `bitfieldSize` as
`byteLength * 8 = 8`, changing the index modulus, so the added key is lost. -/
theorem c5_attenuated_roundtrip_counterexample :
    attTiny.hasAt 0 fooKey = true ∧
    (AttenuatedBloomFilter.fromHexArray attTiny.toHexArray).hasAt 0 fooKey = false ∧
    (AttenuatedBloomFilter.fromHexArray attTiny.toHexArray).bitfieldSize = 8 ∧
    attTiny.bitfieldSize = 1 := by
  decide

/-- Claim C1: no false negatives, for every filter variant. After `add(k)` —
for the classic filter, for `SafeBloomFilter` when that `add` returned true,
for `ScalingBloomFilter` (whose `add` always lands the key in a generation),
and for any level of an `AttenuatedBloomFilter` — `has(k)` is true, both
immediately (the other-key list may be empty) and after any sequence of
subsequent `add` calls with other keys. -/
theorem c1_no_false_negatives :
    (∀ (f : BloomFilter) (key : List ℕ) (keys : List (List ℕ)), f.WF →
      (bloomAddMany (f.add key) keys).has key = true) ∧
    (∀ (f : SafeBloomFilter) (key : List ℕ) (keys : List (List ℕ)), f.filter.WF →
      (f.add key).2 = true → (safeAddMany (f.add key).1 keys).has key = true) ∧
    (∀ (s : ScalingBloomFilter) (key : List ℕ) (keys : List (List ℕ)), s.WFadd →
      (scalingAddMany s (key :: keys)).has key = true) ∧
    (∀ (a : AttenuatedBloomFilter) (i : ℕ) (key : List ℕ) (ops : List (ℕ × List ℕ))
      (f : BloomFilter), a.filters.get? i = some f → f.WF →
      (attAddMany (a.addAt i key) ops).hasAt i key = true) := by
  refine ⟨?_, ?_, ?_, ?_⟩
  · intro f key keys hwf
    exact bloomAddMany_has_mono _ _ _ (bloom_add_has_self f key hwf)
  · intro f key keys hwf hacc
    exact safeAddMany_has_mono _ _ _ (Safebloom_add_has_self f key hwf hacc)
  · intro s key keys hwf
    show (scalingAddMany (match s.add key with | some p => p.1 | none => s) keys).has
      key = true
    obtain ⟨s', r, hadd, hhas⟩ := scalingAdd_has_self s key hwf
    rw [hadd]
    exact scalingAddMany_has_mono _ _ _ hhas
  · intro a i key ops f hf hwf
    exact attAddMany_hasAt_mono _ _ _ _ (attAddAt_hasAt_self a i key f hf hwf)

/-- Witness for C1 at concrete inputs: each variant's hypotheses hold for a
small well-formed filter, `'foo'` is added and `'bar'` afterwards. -/
theorem c1_witness :
    (bloomAddMany ((mkBloomFilter 16 2).add fooKey) [barKey]).has fooKey = true ∧
    (safeAddMany (safeDemoRoom.add fooKey).1 [barKey]).has fooKey = true ∧
    (scalingAddMany scalingDemoTailRoom [fooKey, barKey]).has fooKey = true ∧
    (attAddMany ((mkAttenuatedBloomFilter 16 2).addAt 0 fooKey) [(1, barKey)]).hasAt
      0 fooKey = true :=
  ⟨c1_no_false_negatives.1 (mkBloomFilter 16 2) fooKey [barKey] (by decide),
   c1_no_false_negatives.2.1 safeDemoRoom fooKey [barKey]
     (by decide) (by decide),
   c1_no_false_negatives.2.2.1 scalingDemoTailRoom fooKey [barKey]
     ⟨_, rfl, by decide, by decide,
      by norm_num [scalingDemoTailRoom, safeDemoRoom],
      by norm_num [scalingDemoTailRoom, safeDemoRoom]⟩,
   c1_no_false_negatives.2.2.2 (mkAttenuatedBloomFilter 16 2) 0 fooKey [(1, barKey)]
     (mkBloomFilter 16 2) (by decide) (by decide)⟩

/-- Claim C2: capacity enforcement of `SafeBloomFilter`. An `add` at
`count >= capacity` returns false and leaves the state (hence every `has`
answer) untouched; an `add` under capacity delegates to the owned filter,
increments `count` and returns true; and from a fresh filter of capacity
`cap`, a run of `cap` adds (distinct or not) returns all-true and the next
add returns false. -/
theorem c2_capacity_enforcement :
    (∀ (f : SafeBloomFilter) (key : List ℕ), f.capacity ≤ f.count →
      f.add key = (f, false)) ∧
    (∀ (f : SafeBloomFilter) (key : List ℕ), f.count < f.capacity →
      f.add key = ({ f with count := f.count + 1, filter := f.filter.add key }, true)) ∧
    (∀ (cap : ℕ) (er : ℝ) (keys : List (List ℕ)) (extra : List ℕ), keys.length = cap →
      safeAddResults (mkSafeBloomFilter cap er) keys = List.replicate cap true ∧
      ((safeAddMany (mkSafeBloomFilter cap er) keys).add extra).2 = false) := by
  refine ⟨?_, ?_, ?_⟩
  · intro f key h
    unfold SafeBloomFilter.add
    rw [if_pos h]
  · intro f key h
    unfold SafeBloomFilter.add
    rw [if_neg (by omega)]
  · intro cap er keys extra hlen
    have h := safeAddResults_full keys (mkSafeBloomFilter cap er)
      (by rw [mkSafeBloomFilter_count, mkSafeBloomFilter_capacity, hlen]; omega)
    have hcnt : (safeAddMany (mkSafeBloomFilter cap er) keys).count = cap := by
      rw [h.2.1, mkSafeBloomFilter_count, hlen]; omega
    have hcp : (safeAddMany (mkSafeBloomFilter cap er) keys).capacity = cap := by
      rw [h.2.2, mkSafeBloomFilter_capacity]
    refine ⟨by rw [h.1, hlen], ?_⟩
    unfold SafeBloomFilter.add
    rw [if_pos (by rw [hcnt, hcp])]

/-- Witness for C2 at concrete inputs: a full filter rejects, a filter with
room accepts, and a fresh capacity-2 filter accepts exactly two adds. -/
theorem c2_witness :
    safeDemoFull.add fooKey = (safeDemoFull, false) ∧
    safeDemoRoom.add fooKey =
      ({ safeDemoRoom with
          count := safeDemoRoom.count + 1
          filter := safeDemoRoom.filter.add fooKey }, true) ∧
    (safeAddResults (mkSafeBloomFilter 2 (1 / 2)) [fooKey, barKey] =
      List.replicate 2 true ∧
      ((safeAddMany (mkSafeBloomFilter 2 (1 / 2)) [fooKey, barKey]).add bazKey).2 = false) :=
  ⟨c2_capacity_enforcement.1 safeDemoFull fooKey (by decide),
   c2_capacity_enforcement.2.1 safeDemoRoom fooKey (by decide),
   c2_capacity_enforcement.2.2 2 (1 / 2) [fooKey, barKey] bazKey (by decide)⟩

/-- Claim C3: `calulateHashes(key, size, slices)` with an integral
`slices >= 1` and `size >= 1` yields exactly `slices` indices; the `i`-th is
`(h1 + i*h2) mod size` where `h1`/`h2` are the unsigned 32-bit FNV hashes of
the seed byte `'S'`/`'W'` followed by the key bytes (one concatenated
stream); every index lies in `[0, size)`; and the function is a pure
function of its inputs. -/
theorem c3_derive_indices :
    ∀ (key : List ℕ) (size slices : ℕ), 1 ≤ size → 1 ≤ slices →
      (calulateHashes key size slices).length = slices ∧
      (∀ i (h : i < (calulateHashes key size slices).length),
        (calulateHashes key size slices).get ⟨i, h⟩ =
          (fnvValueU (fnvUpdate fnvInit ([83] ++ key)) +
            i * fnvValueU (fnvUpdate fnvInit ([87] ++ key))) % size) ∧
      fnvValueU (fnvUpdate fnvInit ([83] ++ key)) < 2 ^ 32 ∧
      fnvValueU (fnvUpdate fnvInit ([87] ++ key)) < 2 ^ 32 ∧
      (∀ x ∈ calulateHashes key size slices, x < size) ∧
      (∀ key2 size2 slices2, key2 = key → size2 = size → slices2 = slices →
        calulateHashes key2 size2 slices2 = calulateHashes key size slices) := by
  intro key size slices hs _
  refine ⟨by unfold calulateHashes; simp, ?_, ?_, ?_,
    calulateHashes_lt key size slices hs, ?_⟩
  · intro i h
    rw [List.get_eq_getElem]
    unfold calulateHashes
    simp only [List.getElem_map, List.getElem_range, ← fnvUpdate_append]
  · unfold fnvValueU
    have h1 := Int.emod_nonneg (fnvUpdate fnvInit ([83] ++ key))
      (by norm_num : (2 ^ 32 : ℤ) ≠ 0)
    have h2 := Int.emod_lt_of_pos (fnvUpdate fnvInit ([83] ++ key))
      (by norm_num : (0 : ℤ) < 2 ^ 32)
    omega
  · unfold fnvValueU
    have h1 := Int.emod_nonneg (fnvUpdate fnvInit ([87] ++ key))
      (by norm_num : (2 ^ 32 : ℤ) ≠ 0)
    have h2 := Int.emod_lt_of_pos (fnvUpdate fnvInit ([87] ++ key))
      (by norm_num : (0 : ℤ) < 2 ^ 32)
    omega
  · intro key2 size2 slices2 h1 h2 h3
    rw [h1, h2, h3]

/-- Witness for C3 at a concrete input (`key = [0]`, `size = 7`,
`slices = 3`). -/
theorem c3_witness :
    (calulateHashes [0] 7 3).length = 3 ∧
    (∀ i (h : i < (calulateHashes [0] 7 3).length),
      (calulateHashes [0] 7 3).get ⟨i, h⟩ =
        (fnvValueU (fnvUpdate fnvInit ([83] ++ [0])) +
          i * fnvValueU (fnvUpdate fnvInit ([87] ++ [0]))) % 7) ∧
    fnvValueU (fnvUpdate fnvInit ([83] ++ [0])) < 2 ^ 32 ∧
    fnvValueU (fnvUpdate fnvInit ([87] ++ [0])) < 2 ^ 32 ∧
    (∀ x ∈ calulateHashes [0] 7 3, x < 7) ∧
    (∀ key2 size2 slices2, key2 = [0] → size2 = 7 → slices2 = 3 →
      calulateHashes key2 size2 slices2 = calulateHashes [0] 7 3) :=
  c3_derive_indices [0] 7 3 (by decide) (by decide)

/-- Claim C6, counterexample: the source divides by the hardcoded constant
0.480453, not by the exact `(ln 2)^2 = 0.4804530139...`; at `capacity = 1`,
`errorRate = exp(-(ln 2)^2)` the exact formula's ceiling is 1 while the
code's is 2. -/
theorem c6_sizing_constant_counterexample :
    calculateSize 1 (Real.exp (-(Real.log 2 ^ 2))) ≠
      calculateSizeSpec 1 (Real.exp (-(Real.log 2 ^ 2))) := by
  have hlog : Real.log (Real.exp (-(Real.log 2 ^ 2))) = -(Real.log 2 ^ 2) :=
    Real.log_exp _
  have hl2 : (0.6931471803 : ℝ) < Real.log 2 := Real.log_two_gt_d9
  have hu2 : Real.log 2 < 0.6931471808 := Real.log_two_lt_d9
  have h0 : (0 : ℝ) < Real.log 2 := by linarith
  have hsq_lo : (0.480453 : ℝ) < Real.log 2 ^ 2 := by nlinarith
  have hsq_hi : Real.log 2 ^ 2 ≤ 0.960906 := by nlinarith
  have hspec : calculateSizeSpec 1 (Real.exp (-(Real.log 2 ^ 2))) = 1 := by
    unfold calculateSizeSpec
    rw [hlog, one_mul, neg_div_neg_eq, div_self (by positivity), Int.ceil_one]
  have hcode : calculateSize 1 (Real.exp (-(Real.log 2 ^ 2))) = 2 := by
    unfold calculateSize log2sq
    rw [hlog, one_mul, neg_div_neg_eq, Int.ceil_eq_iff]
    constructor
    · rw [show ((2 : ℤ) : ℝ) - 1 = 1 by norm_num]
      rw [one_lt_div (by norm_num : (0 : ℝ) < 0.480453)]
      exact hsq_lo
    · rw [show ((2 : ℤ) : ℝ) = 2 by norm_num]
      rw [div_le_iff₀ (by norm_num : (0 : ℝ) < 0.480453)]
      linarith
  rw [hcode, hspec]
  decide

/-- Claim C6 as amended: for every capacity `>= 1` and error rate strictly
between 0 and 1, `calculateSize` is the ceiling of `capacity * ln(errorRate)
/ -0.480453` — the code's hardcoded 6-decimal truncation of `(ln 2)^2` —
and the result is at least 1; `calculateSlices(size, capacity)` is
`(size / capacity) * ln 2` exactly as claimed. -/
theorem c6_sizing_formulas :
    ∀ (c e : ℝ), 1 ≤ c → 0 < e → e < 1 →
      calculateSize c e = ⌈c * Real.log e / -(0.480453 : ℝ)⌉ ∧
      1 ≤ calculateSize c e ∧
      ∀ s c2 : ℝ, calculateSlices s c2 = s / c2 * Real.log 2 := by
  intro c e hc he0 he1
  refine ⟨rfl, ?_, fun s c2 => rfl⟩
  have h := calculateSize_pos c e hc he0 he1
  omega

/-- Witness for C6 at `capacity = 2`, `errorRate = 1/2`. -/
theorem c6_witness :
    calculateSize 2 (1 / 2) = ⌈(2 : ℝ) * Real.log (1 / 2) / -(0.480453 : ℝ)⌉ ∧
    1 ≤ calculateSize 2 (1 / 2) ∧
    ∀ s c2 : ℝ, calculateSlices s c2 = s / c2 * Real.log 2 :=
  c6_sizing_formulas 2 (1 / 2) (by norm_num) (by norm_num) (by norm_num)

/-- Claim C10: the real-valued slice count is used directly as the hash
loop's bound, so the loop runs `⌈slices⌉` times: `calulateHashesR` yields
exactly `⌈s⌉₊` indices for every real `s > 0`, and a `SafeBloomFilter`
constructed from `(capacity, errorRate)` carries — and derives per key — an
effective integer hash count of `⌈calculateSlices(size, capacity)⌉₊`, the
ceiling (not the floor) of the reference formula's real value. -/
theorem c10_real_slice_loop_bound :
    (∀ (key : List ℕ) (size : ℕ) (s : ℝ), 0 < s →
      (calulateHashesR key size s).length = ⌈s⌉₊) ∧
    (∀ (cap : ℕ) (er : ℝ),
      (mkSafeBloomFilter cap er).filter.slices =
        ⌈calculateSlices (((calculateSize cap er).toNat : ℝ)) cap⌉₊) ∧
    (∀ (cap : ℕ) (er : ℝ) (key : List ℕ),
      (calulateHashes key (mkSafeBloomFilter cap er).filter.size
        (mkSafeBloomFilter cap er).filter.slices).length =
        ⌈calculateSlices (((calculateSize cap er).toNat : ℝ)) cap⌉₊) := by
  refine ⟨?_, ?_, ?_⟩
  · intro key size s _
    unfold calulateHashesR calulateHashes
    simp only [List.length_map, List.length_range]
    exact realLoopCount_eq_ceil s
  · intro cap er
    exact realLoopCount_eq_ceil _
  · intro cap er key
    have h1 : (calulateHashes key (mkSafeBloomFilter cap er).filter.size
        (mkSafeBloomFilter cap er).filter.slices).length =
        (mkSafeBloomFilter cap er).filter.slices := by
      unfold calulateHashes
      simp
    rw [h1]
    exact realLoopCount_eq_ceil _

/-- Witness for C10 at `s = 3/2`. -/
theorem c10_witness :
    (calulateHashesR [0] 7 (3 / 2)).length = ⌈(3 / 2 : ℝ)⌉₊ ∧
    (mkSafeBloomFilter 2 (1 / 2)).filter.slices =
      ⌈calculateSlices (((calculateSize 2 (1 / 2)).toNat : ℝ)) 2⌉₊ :=
  ⟨c10_real_slice_loop_bound.1 [0] 7 (3 / 2) (by norm_num),
   c10_real_slice_loop_bound.2.1 2 (1 / 2)⟩

theorem bloomFilterExt (a b : BloomFilter) (h1 : a.size = b.size)
    (h2 : a.slices = b.slices) (h3 : a.bitfield = b.bitfield) : a = b := by
  cases a
  cases b
  simp only [BloomFilter.mk.injEq]
  exact ⟨h1, h2, h3⟩

theorem safeBloomFilterExt (a b : SafeBloomFilter) (h1 : a.capacity = b.capacity)
    (h2 : a.errorRate = b.errorRate) (h3 : a.count = b.count)
    (h4 : a.filter = b.filter) : a = b := by
  cases a
  cases b
  simp only [SafeBloomFilter.mk.injEq]
  exact ⟨h1, h2, h3, h4⟩

theorem scalingBloomFilterExt (a b : ScalingBloomFilter) (h1 : a.errorRate = b.errorRate)
    (h2 : a.ratio = b.ratio) (h3 : a.scaling = b.scaling)
    (h4 : a.initialCapacity = b.initialCapacity) (h5 : a.filters = b.filters) : a = b := by
  cases a
  cases b
  simp only [ScalingBloomFilter.mk.injEq]
  exact ⟨h1, h2, h3, h4, h5⟩

theorem attenuatedBloomFilterExt (a b : AttenuatedBloomFilter)
    (h1 : a.bitfieldSize = b.bitfieldSize) (h2 : a.filterDepth = b.filterDepth)
    (h3 : a.filters = b.filters) : a = b := by
  cases a
  cases b
  simp only [AttenuatedBloomFilter.mk.injEq]
  exact ⟨h1, h2, h3⟩

/-- Round-tripping holds exactly when the stored dimensions are the ones the
constructor would re-derive from the stored capacity and error rate (the
snapshot does not carry size or slices; `destringify` recomputes them). -/
theorem SafeRT_iff (g : SafeBloomFilter) :
    SafeRT g ↔ (mkSafeBloomFilter g.capacity g.errorRate).filter.size = g.filter.size ∧
      (mkSafeBloomFilter g.capacity g.errorRate).filter.slices = g.filter.slices := by
  constructor
  · intro h
    exact ⟨congrArg (fun x => x.filter.size) h, congrArg (fun x => x.filter.slices) h⟩
  · intro h
    unfold SafeRT destringifySafe
    exact safeBloomFilterExt _ _ rfl rfl rfl (bloomFilterExt _ _ h.1 h.2 rfl)

theorem SafeRT_mk (c : ℕ) (e : ℝ) : SafeRT (mkSafeBloomFilter c e) :=
  (SafeRT_iff _).mpr ⟨rfl, rfl⟩

theorem SafeRT_add (g : SafeBloomFilter) (k : List ℕ) (h : SafeRT g) :
    SafeRT (g.add k).1 := by
  rw [SafeRT_iff] at h ⊢
  rw [SafeBloomFilter.capacity_add, SafeBloomFilter.errorRate_add,
    SafeBloomFilter.filter_size_add, SafeBloomFilter.filter_slices_add]
  exact h

theorem SafeRT_addMany (keys : List (List ℕ)) :
    ∀ g : SafeBloomFilter, SafeRT g → SafeRT (safeAddMany g keys) := by
  induction keys with
  | nil => exact fun _ h => h
  | cons k ks ih => exact fun g h => ih _ (SafeRT_add g k h)

theorem map_destringifySafe_id (l : List SafeBloomFilter) (h : ∀ g ∈ l, SafeRT g) :
    l.map destringifySafe = l := by
  induction l with
  | nil => rfl
  | cons a l ih =>
    rw [List.map_cons, show destringifySafe a = a from h a (List.mem_cons_self a l),
      ih fun g hg => h g (List.mem_cons_of_mem _ hg)]

theorem destringifyScaling_eq (s : ScalingBloomFilter) (h : ∀ g ∈ s.filters, SafeRT g) :
    destringifyScaling s = s := by
  unfold destringifyScaling
  exact scalingBloomFilterExt _ _ rfl rfl rfl rfl (map_destringifySafe_id _ h)

theorem scalingAdd_preserves_RT (s : ScalingBloomFilter) (k : List ℕ)
    (s' : ScalingBloomFilter) (r : Bool) (hadd : s.add k = some (s', r))
    (h : ∀ g ∈ s.filters, SafeRT g) : ∀ g ∈ s'.filters, SafeRT g := by
  cases hl : s.filters.getLast? with
  | none =>
    rw [ScalingBloomFilter.add_none s k hl] at hadd
    cases hadd
  | some t =>
    rw [ScalingBloomFilter.add_eq s k t hl] at hadd
    have hne : s.filters ≠ [] := by
      intro heq
      rw [heq] at hl
      cases hl
    have htmem : t ∈ s.filters := by
      have hgl := List.getLast?_eq_getLast_of_ne_nil hne
      rw [hl] at hgl
      rw [Option.some.inj hgl]
      exact List.getLast_mem hne
    by_cases hacc : (t.add k).2 = true
    · rw [if_pos hacc] at hadd
      have hs := congrArg Prod.fst (Option.some.inj hadd)
      subst hs
      intro g hg
      rcases List.mem_append.mp hg with hg' | hg'
      · refine h g ?_
        rw [← List.dropLast_append_getLast hne]
        exact List.mem_append_left _ hg'
      · rw [List.mem_singleton.mp hg']
        exact SafeRT_add t k (h t htmem)
    · rw [if_neg hacc] at hadd
      have hs := congrArg Prod.fst (Option.some.inj hadd)
      subst hs
      intro g hg
      rcases List.mem_append.mp hg with hg' | hg'
      · exact h g hg'
      · rw [List.mem_singleton.mp hg']
        exact SafeRT_add _ k (SafeRT_mk _ _)

theorem scalingAdd_top_fields (s : ScalingBloomFilter) (k : List ℕ)
    (s' : ScalingBloomFilter) (r : Bool) (hadd : s.add k = some (s', r)) :
    s'.errorRate = s.errorRate ∧ s'.ratio = s.ratio ∧ s'.scaling = s.scaling ∧
      s'.initialCapacity = s.initialCapacity := by
  cases hl : s.filters.getLast? with
  | none =>
    rw [ScalingBloomFilter.add_none s k hl] at hadd
    cases hadd
  | some t =>
    rw [ScalingBloomFilter.add_eq s k t hl] at hadd
    by_cases hacc : (t.add k).2 = true
    · rw [if_pos hacc] at hadd
      have hs := congrArg Prod.fst (Option.some.inj hadd)
      subst hs
      exact ⟨rfl, rfl, rfl, rfl⟩
    · rw [if_neg hacc] at hadd
      have hs := congrArg Prod.fst (Option.some.inj hadd)
      subst hs
      exact ⟨rfl, rfl, rfl, rfl⟩

theorem scalingAddMany_preserves_RT (keys : List (List ℕ)) :
    ∀ s : ScalingBloomFilter, (∀ g ∈ s.filters, SafeRT g) →
      ∀ g ∈ (scalingAddMany s keys).filters, SafeRT g := by
  induction keys with
  | nil => exact fun _ h => h
  | cons k ks ih =>
    intro s h
    show ∀ g ∈ (scalingAddMany (match s.add k with | some p => p.1 | none => s) ks).filters,
      SafeRT g
    cases hadd : s.add k with
    | none => exact ih _ h
    | some p => exact ih _ (scalingAdd_preserves_RT s k p.1 p.2 (by rw [hadd]) h)

theorem scalingAddMany_top_fields (keys : List (List ℕ)) :
    ∀ s : ScalingBloomFilter,
      (scalingAddMany s keys).errorRate = s.errorRate ∧
      (scalingAddMany s keys).ratio = s.ratio ∧
      (scalingAddMany s keys).scaling = s.scaling ∧
      (scalingAddMany s keys).initialCapacity = s.initialCapacity := by
  induction keys with
  | nil => exact fun _ => ⟨rfl, rfl, rfl, rfl⟩
  | cons k ks ih =>
    intro s
    have hstep : scalingAddMany s (k :: ks) =
        scalingAddMany (match s.add k with | some p => p.1 | none => s) ks := rfl
    rw [hstep]
    cases hadd : s.add k with
    | none => exact ih s
    | some p =>
      have hf := scalingAdd_top_fields s k p.1 p.2 (by rw [hadd])
      have := ih p.1
      exact ⟨this.1.trans hf.1, this.2.1.trans hf.2.1, this.2.2.1.trans hf.2.2.1,
        this.2.2.2.trans hf.2.2.2⟩

theorem map_hexRoundtrip (bs : ℕ) (l : List BloomFilter)
    (h : ∀ f ∈ l, f.size = bs ∧ f.slices = 2 ∧ ∀ b ∈ f.bitfield, b < 256) :
    (l.map fun f => hexEncode f.bitfield).map
      (fun hx => ({ size := bs, slices := 2, bitfield := hexDecode hx } : BloomFilter)) = l := by
  induction l with
  | nil => rfl
  | cons f fs ih =>
    obtain ⟨h1, h2, h3⟩ := h f (List.mem_cons_self f fs)
    simp only [List.map_cons]
    rw [hexDecode_hexEncode _ h3, ih fun g hg => h g (List.mem_cons_of_mem _ hg)]
    congr 1
    exact bloomFilterExt _ _ h1.symm h2.symm rfl

theorem att_fromHex_toHex (a : AttenuatedBloomFilter) (h : AttRT a) :
    AttenuatedBloomFilter.fromHexArray a.toHexArray = a := by
  obtain ⟨hne, hdepth, hdvd, hnz, hall⟩ := h
  unfold AttenuatedBloomFilter.fromHexArray AttenuatedBloomFilter.toHexArray
  cases hfl : a.filters with
  | nil => exact absurd hfl hne
  | cons f0 rest =>
    obtain ⟨hs0, hsl0, hlen0, hb0⟩ := hall f0 (by rw [hfl]; exact List.mem_cons_self f0 rest)
    have hbs : (hexDecode (((f0 :: rest).map fun f => hexEncode f.bitfield).headD [])).length * 8
        = a.bitfieldSize := by
      simp only [List.map_cons, List.headD_cons]
      rw [hexDecode_hexEncode _ hb0, hlen0]
      exact Nat.div_mul_cancel hdvd
    refine attenuatedBloomFilterExt _ _ hbs ?_ ?_
    · show ((f0 :: rest).map fun f => hexEncode f.bitfield).length = a.filterDepth
      rw [List.length_map, hdepth, hfl]
    · simp only [hbs]
      rw [hfl]
      refine map_hexRoundtrip a.bitfieldSize (f0 :: rest) ?_
      intro f hf
      have := hall f (hfl ▸ hf)
      exact ⟨this.1, this.2.1, this.2.2.2⟩

/-- Claim C5 as amended: reconstructing from a structural snapshot preserves
`has` for every key — verbatim for `BloomFilter.destringify`; for
`SafeBloomFilter.destringify` and `ScalingBloomFilter.destringify` on every
filter reachable from the constructor by `add` calls (the snapshot omits the
derived size/slices, which destringify re-derives identically from the
stored capacity and error rate); and for `AttenuatedBloomFilter.from` on
`toHexArray()` output provided `bitfieldSize` is a multiple of 8 — `from`
reconstructs the size as decoded byte length × 8, so non-byte-aligned sizes
(see the counterexample) are not recovered. In each case the reconstruction
is bit-for-bit: the states are equal, so `has` agrees everywhere. -/
theorem c5_roundtrip_serialization :
    (∀ f : BloomFilter, destringifyBloom f = f ∧
      ∀ key, (destringifyBloom f).has key = f.has key) ∧
    (∀ (cap : ℕ) (er : ℝ) (keys : List (List ℕ)),
      destringifySafe (safeAddMany (mkSafeBloomFilter cap er) keys) =
        safeAddMany (mkSafeBloomFilter cap er) keys ∧
      ∀ key, (destringifySafe (safeAddMany (mkSafeBloomFilter cap er) keys)).has key =
        (safeAddMany (mkSafeBloomFilter cap er) keys).has key) ∧
    (∀ (er rat : ℝ) (sc initCap : ℕ) (keys : List (List ℕ)),
      destringifyScaling (scalingAddMany (mkScalingBloomFilter er rat sc initCap) keys) =
        scalingAddMany (mkScalingBloomFilter er rat sc initCap) keys ∧
      ∀ key, (destringifyScaling
          (scalingAddMany (mkScalingBloomFilter er rat sc initCap) keys)).has key =
        (scalingAddMany (mkScalingBloomFilter er rat sc initCap) keys).has key) ∧
    (∀ a : AttenuatedBloomFilter, AttRT a →
      AttenuatedBloomFilter.fromHexArray a.toHexArray = a ∧
      ∀ i key, (AttenuatedBloomFilter.fromHexArray a.toHexArray).hasAt i key =
        a.hasAt i key) := by
  refine ⟨?_, ?_, ?_, ?_⟩
  · exact fun f => ⟨rfl, fun key => rfl⟩
  · intro cap er keys
    have hrt : destringifySafe (safeAddMany (mkSafeBloomFilter cap er) keys) =
        safeAddMany (mkSafeBloomFilter cap er) keys :=
      SafeRT_addMany keys _ (SafeRT_mk cap er)
    exact ⟨hrt, fun key => by rw [hrt]⟩
  · intro er rat sc initCap keys
    have hbase : ∀ g ∈ (mkScalingBloomFilter er rat sc initCap).filters, SafeRT g := by
      intro g hg
      rw [List.mem_singleton.mp hg]
      exact SafeRT_mk _ _
    have heq := destringifyScaling_eq _ (scalingAddMany_preserves_RT keys _ hbase)
    exact ⟨heq, fun key => by rw [heq]⟩
  · intro a h
    have heq := att_fromHex_toHex a h
    exact ⟨heq, fun i key => by rw [heq]⟩

/-- Witness for C5 at a concrete input: a 2-level, 16-bit attenuated set
with `'foo'` added at level 0 satisfies the well-formedness hypothesis and
round-trips. -/
theorem c5_witness :
    AttenuatedBloomFilter.fromHexArray
      ((mkAttenuatedBloomFilter 16 2).addAt 0 fooKey).toHexArray =
      (mkAttenuatedBloomFilter 16 2).addAt 0 fooKey ∧
    ∀ i key, (AttenuatedBloomFilter.fromHexArray
      ((mkAttenuatedBloomFilter 16 2).addAt 0 fooKey).toHexArray).hasAt i key =
      ((mkAttenuatedBloomFilter 16 2).addAt 0 fooKey).hasAt i key :=
  c5_roundtrip_serialization.2.2.2 ((mkAttenuatedBloomFilter 16 2).addAt 0 fooKey)
    (by decide)
